import Mathlib

/-!
Shallow embedding of `src/main.cpp` (a conservative, stack-scanning
mark-and-sweep garbage collector, class `GarbageCollector`).

Modelling conventions:
* Addresses (`void*`) are unbounded naturals; `0` models the null
  pointer (faithful to the bit-level pointer comparisons the code
  performs, e.g. in `scan_stack`).  Pointer arithmetic past the end of
  an allocation is undefined behaviour in C++, so unbounded `Nat`
  addition models `create_pointer_by_offset` on every defined execution.
* `std::size_t` fields are unbounded naturals.  The only unguarded
  subtraction in the source is the chunk counter update in
  `realease_block` (`used_size -= block.size`); it is modelled with the
  exact wrap-around semantics of 64-bit `size_t` (`sub_usize`, modulo
  `USIZE_MOD = 2 ^ 64`), because the scan can re-mark an `Unused` block
  to 0 and make the sweep release it twice, genuinely underflowing the
  counter.  Both size subtractions in `allocate` are guarded by
  `size >= requested` branch conditions, so plain `Nat` subtraction is
  exact there.  Theorems asserting an exact counter decrease carry the
  no-underflow hypotheses under which `sub_usize` coincides with true
  subtraction.
* `mark` is a C++ `short`; it is modelled as `Int` (scenarios never
  approach the 16-bit range, so overflow does not matter).
* `malloc` is modelled by passing each call that may allocate a chunk
  the address the OS would return (`os : Nat`, `0` = refusal), and
  `throw AllocationException` becomes `Except.error ()`.
* The machine stack scanned by `collect` is modelled as the list of
  pointer-sized words between the scan cursor and the stack top, in
  scan order.
-/

/-- `BlockState` (`src/main.cpp` lines 44-48), values of the C++ `short`. -/
def BlockState.Used : Int := 0

/-- `BlockState::Unused` = -1. -/
def BlockState.Unused : Int := -1

/-- `BlockState::Freed` = -2. -/
def BlockState.Freed : Int := -2

/-- `GarbageCollector::Chunk` (lines 56-65): base pointer, used-byte
counter, capacity. -/
structure Chunk where
  ptr : Nat
  used_size : Nat
  max_size : Nat
  deriving Repr, DecidableEq

/-- `GarbageCollector::AllocatedBlock` (lines 67-78): base pointer,
size in bytes, mark, owning-chunk index. -/
structure AllocatedBlock where
  ptr : Nat
  size : Nat
  mark : Int
  chunk_idx : Nat
  deriving Repr, DecidableEq

/-- `CHUNK_SIZE` (line 82): 1024 * 1024 bytes. -/
def CHUNK_SIZE : Nat := 1024 * 1024

/-- The collector's mutable state (lines 84-87). -/
structure GC where
  m_allocs : List AllocatedBlock
  m_chunks : List Chunk
  m_current_chunk_idx : Nat
  m_next_free_allocated_block_idx : Nat
  deriving Repr, DecidableEq

/-- In-place update of one vector element, as C++ `v[i] = ...` /
`v[i].f += ...`.  Out-of-range access is UB in C++ and a no-op here;
every theorem that depends on an update carries an in-range hypothesis. -/
def modifyIdx {α : Type} : List α → Nat → (α → α) → List α
  | [], _, _ => []
  | x :: xs, 0, f => f x :: xs
  | x :: xs, i + 1, f => x :: modifyIdx xs i f

/-- The number of bytes `alloc_chunk` passes to `malloc`
(line 264: `size < CHUNK_SIZE ? CHUNK_SIZE : size`). -/
def size_to_allocate (size : Nat) : Nat :=
  if size < CHUNK_SIZE then CHUNK_SIZE else size

/-- `GarbageCollector::alloc_chunk` (lines 263-273).  `os` is the address
`malloc (size_to_allocate size)` returns for this call (`0` = null):
on success the chunk starts with a zero used-byte counter and capacity
`size_to_allocate size`; on null the C++ code throws
`AllocationException`, modelled as `none`. -/
def alloc_chunk (os : Nat) (size : Nat) : Option Chunk :=
  if os ≠ 0 then some ⟨os, 0, size_to_allocate size⟩ else none

/-- The constructor (lines 97-104): allocate one chunk of `CHUNK_SIZE`
bytes and record a single `Unused` block covering all of it.
`os` is the address `malloc` returns for the initial chunk. -/
def GC.init (os : Nat) : Option GC :=
  match alloc_chunk os CHUNK_SIZE with
  | none => none
  | some chunk =>
    some { m_allocs := [⟨chunk.ptr, CHUNK_SIZE, BlockState.Unused, 0⟩]
         , m_chunks := [chunk]
         , m_current_chunk_idx := 0
         , m_next_free_allocated_block_idx := 0 }

/-- One slow-path iteration set (lines 155-164): the range-for visits the
table entries present when the loop starts, appending a `Used` entry for
every `Unused` block whose size fits the request, advancing that block's
base and shrinking its size, and bumping the owning chunk's counter.
Returns (updated visited blocks, appended entries in visit order,
updated chunks, `pointer` — the base of the last qualifying block, or
the inherited value when none qualifies). -/
def slowLoop (size : Nat) :
    List AllocatedBlock → List Chunk → Nat →
    List AllocatedBlock × List AllocatedBlock × List Chunk × Nat
  | [], chunks, pointer => ([], [], chunks, pointer)
  | blk :: rest, chunks, pointer =>
    if blk.mark = BlockState.Unused ∧ size ≤ blk.size then
      let p := blk.ptr
      let blk' : AllocatedBlock :=
        { blk with ptr := blk.ptr + size, size := blk.size - size }
      let chunks' :=
        modifyIdx chunks blk.chunk_idx
          (fun c => { c with used_size := c.used_size + size })
      let r := slowLoop size rest chunks' p
      (blk' :: r.1, ⟨p, size, BlockState.Used, blk.chunk_idx⟩ :: r.2.1,
       r.2.2.1, r.2.2.2)
    else
      let r := slowLoop size rest chunks pointer
      (blk :: r.1, r.2.1, r.2.2.1, r.2.2.2)

/-- Lines 132-165 of `allocate`: the fast path over the cached
next-free block, falling back to the slow-path scan.  Returns the
`pointer` local (`0` = still null) and the updated state. -/
def alloc_search (size : Nat) (gc : GC) : Nat × GC :=
  match gc.m_allocs[gc.m_next_free_allocated_block_idx]? with
  | some nfb =>
    if nfb.mark = BlockState.Unused ∧ size ≤ nfb.size then
      let pointer := nfb.ptr
      let chunks' :=
        modifyIdx gc.m_chunks nfb.chunk_idx
          (fun c => { c with used_size := c.used_size + size })
      if size < nfb.size then
        let allocs' :=
          modifyIdx gc.m_allocs gc.m_next_free_allocated_block_idx
            (fun b => { b with ptr := b.ptr + size, size := b.size - size })
            ++ [⟨pointer, size, 0, nfb.chunk_idx⟩]
        (pointer, { gc with m_allocs := allocs', m_chunks := chunks' })
      else
        let allocs' :=
          modifyIdx gc.m_allocs gc.m_next_free_allocated_block_idx
            (fun b => { b with mark := 0 })
        (pointer, { gc with m_allocs := allocs', m_chunks := chunks' })
    else
      let r := slowLoop size gc.m_allocs gc.m_chunks 0
      (r.2.2.2, { gc with m_allocs := r.1 ++ r.2.1, m_chunks := r.2.2.1 })
  | none =>
    let r := slowLoop size gc.m_allocs gc.m_chunks 0
    (r.2.2.2, { gc with m_allocs := r.1 ++ r.2.1, m_chunks := r.2.2.1 })

/-- `GarbageCollector::allocate` (lines 128-191).  `os` is the address
the OS would return if this call has to request a new chunk. -/
def allocate (os : Nat) (size : Nat) (gc : GC) : Except Unit (Nat × GC) :=
  let r := alloc_search size gc
  if r.1 = 0 then
    match alloc_chunk os size with
    | none => Except.error ()
    | some chunk0 =>
      let chunk : Chunk := { chunk0 with used_size := size }
      let cidx := r.2.m_current_chunk_idx + 1
      let pointer := chunk.ptr
      let allocs' := r.2.m_allocs ++
        [⟨pointer, size, BlockState.Used, cidx⟩,
         ⟨pointer + size, size, BlockState.Unused, cidx⟩]
      Except.ok (pointer,
        { m_allocs := allocs'
        , m_chunks := r.2.m_chunks ++ [chunk]
        , m_current_chunk_idx := cidx
        , m_next_free_allocated_block_idx := allocs'.length - 1 })
  else
    Except.ok r

/-- A sequence of `allocate` calls; each call is paired with the OS
response it would get for a chunk request.  `none` when any call throws. -/
def allocSeq (gc : GC) : List (Nat × Nat) → Option (List Nat × GC)
  | [] => some ([], gc)
  | (size, os) :: rest =>
    match allocate os size gc with
    | Except.error _ => none
    | Except.ok (p, gc') =>
      match allocSeq gc' rest with
      | none => none
      | some (ps, gc'') => some (p :: ps, gc'')

/-- The mark-reset loop of `collect` (lines 217-219): positive marks go
to 0, the `Unused`/`Freed` sentinels survive. -/
def resetMarks (gc : GC) : GC :=
  { gc with m_allocs :=
      gc.m_allocs.map (fun b => if b.mark > 0 then { b with mark := 0 } else b) }

/-- One word of `scan_stack` (lines 279-293): `std::find_if` locates the
first block whose base equals the word; on a hit that block's mark is
incremented, later blocks are not inspected. -/
def scanWord : List AllocatedBlock → Nat → List AllocatedBlock
  | [], _ => []
  | b :: rest, w =>
    if b.ptr = w then { b with mark := b.mark + 1 } :: rest
    else b :: scanWord rest w

/-- `GarbageCollector::scan_stack` (lines 275-294) over the scanned
stack words. -/
def scan_stack (stack : List Nat) (gc : GC) : GC :=
  { gc with m_allocs := stack.foldl scanWord gc.m_allocs }

/-- The modulus of `std::size_t` arithmetic on the modelled 64-bit
platform. -/
def USIZE_MOD : Nat := 2 ^ 64

/-- `std::size_t` subtraction `a - b`: two's-complement wrap-around
modulo `2 ^ 64`.  For `b ≤ a < 2 ^ 64` it equals true subtraction; on
underflow it wraps to a huge value, exactly as the C++ counter does. -/
def sub_usize (a b : Nat) : Nat :=
  (a + (USIZE_MOD - b % USIZE_MOD)) % USIZE_MOD

/-- `GarbageCollector::realease_block` (lines 313-319): the block becomes
`Unused` and its size is subtracted from the owning chunk's counter with
`size_t` wrap-around semantics (`used_size -= block.size`). -/
def realease_block (chunks : List Chunk) (b : AllocatedBlock) :
    AllocatedBlock × List Chunk :=
  ({ b with mark := BlockState.Unused },
   modifyIdx chunks b.chunk_idx
     (fun c => { c with used_size := sub_usize c.used_size b.size }))

/-- The sweep loop of `collect` (lines 226-238): every block whose mark
is exactly 0 is released. -/
def sweepLoop : List AllocatedBlock → List Chunk →
    List AllocatedBlock × List Chunk
  | [], chunks => ([], chunks)
  | b :: rest, chunks =>
    if b.mark = 0 then
      let r := realease_block chunks b
      let r' := sweepLoop rest r.2
      (r.1 :: r'.1, r'.2)
    else
      let r' := sweepLoop rest chunks
      (b :: r'.1, r'.2)

/-- The sweep phase of `collect` as a state transformer. -/
def sweep (gc : GC) : GC :=
  let r := sweepLoop gc.m_allocs gc.m_chunks
  { gc with m_allocs := r.1, m_chunks := r.2 }

/-- `GarbageCollector::free_chunk` (lines 303-311): `free` the memory,
null the pointer, zero both counters. -/
def free_chunk (_c : Chunk) : Chunk := ⟨0, 0, 0⟩

/-- The chunk-release loop of `collect` (lines 241-254): every chunk
whose counter is 0 is freed, and every block referencing it is marked
`Freed` with a nulled address.  `i` is the running chunk index. -/
def freeEmptyLoop : List Chunk → Nat → List AllocatedBlock →
    List Chunk × List AllocatedBlock
  | [], _, allocs => ([], allocs)
  | c :: rest, i, allocs =>
    if c.used_size = 0 then
      let allocs' := allocs.map (fun b =>
        if b.chunk_idx = i then { b with mark := BlockState.Freed, ptr := 0 }
        else b)
      let r := freeEmptyLoop rest (i + 1) allocs'
      (free_chunk c :: r.1, r.2)
    else
      let r := freeEmptyLoop rest (i + 1) allocs
      (c :: r.1, r.2)

/-- The chunk-release phase of `collect` as a state transformer. -/
def freeEmptyChunks (gc : GC) : GC :=
  let r := freeEmptyLoop gc.m_chunks 0 gc.m_allocs
  { gc with m_chunks := r.1, m_allocs := r.2 }

/-- `GarbageCollector::are_blocks_adjacent` (lines 321-323). -/
def are_blocks_adjacent (b1 b2 : AllocatedBlock) : Prop :=
  b1.ptr + b1.size = b2.ptr

instance (b1 b2 : AllocatedBlock) : Decidable (are_blocks_adjacent b1 b2) :=
  inferInstanceAs (Decidable (b1.ptr + b1.size = b2.ptr))

/-- The inner `j` loop of `combine_unused_blocks` (lines 329-339):
`fuel` counts the remaining iterations (the table length is constant
during the loop, only `set` operations happen).  `block1` is re-read
at index `i` on every iteration, as the C++ reference is. -/
def combineInner (i : Nat) : Nat → Nat → List AllocatedBlock →
    List AllocatedBlock
  | _, 0, allocs => allocs
  | j, fuel + 1, allocs =>
    let allocs' :=
      match allocs[i]?, allocs[j]? with
      | some b1, some b2 =>
        if b2.mark = BlockState.Unused ∧ are_blocks_adjacent b1 b2 then
          modifyIdx
            (modifyIdx allocs i (fun b => { b with size := b.size + b2.size }))
            j (fun b => { b with mark := BlockState.Freed, size := 0 })
        else allocs
      | _, _ => allocs
    combineInner i (j + 1) fuel allocs'

/-- The outer `i` loop of `combine_unused_blocks` (lines 326-342). -/
def combineOuter : Nat → Nat → List AllocatedBlock → List AllocatedBlock
  | _, 0, allocs => allocs
  | i, fuel + 1, allocs =>
    let allocs' :=
      match allocs[i]? with
      | some b1 =>
        if b1.ptr ≠ 0 ∧ b1.mark = BlockState.Unused then
          combineInner i 0 allocs.length allocs
        else allocs
      | none => allocs
    combineOuter (i + 1) fuel allocs'

/-- `GarbageCollector::combine_unused_blocks` (lines 325-343). -/
def combine_unused_blocks (gc : GC) : GC :=
  { gc with m_allocs := combineOuter 0 gc.m_allocs.length gc.m_allocs }

/-- `GarbageCollector::collect` (lines 206-261): reset marks, scan the
stack, sweep unmarked blocks, free empty chunks, coalesce. -/
def collect (stack : List Nat) (gc : GC) : GC :=
  combine_unused_blocks (freeEmptyChunks (sweep (scan_stack stack (resetMarks gc))))

/-- The slow-path split condition of `allocate` (line 156), as a Bool. -/
def qualifiesb (size : Nat) (b : AllocatedBlock) : Bool :=
  b.mark == BlockState.Unused && size ≤ b.size

/-- Total size of the blocks the sweep releases into chunk `k`:
those with mark exactly 0 owned by chunk `k`. -/
def releasedBytes (allocs : List AllocatedBlock) (k : Nat) : Nat :=
  ((allocs.filter (fun b => b.mark == 0 && b.chunk_idx == k)).map
    AllocatedBlock.size).sum

/-- The byte ranges of two blocks do not overlap. -/
def rangesDisjoint (b1 b2 : AllocatedBlock) : Prop :=
  b1.ptr + b1.size ≤ b2.ptr ∨ b2.ptr + b2.size ≤ b1.ptr

/-- No two blocks simultaneously in the `Used` state overlap. -/
def UsedDisjoint (gc : GC) : Prop :=
  gc.m_allocs.Pairwise (fun b1 b2 =>
    b1.mark = BlockState.Used → b2.mark = BlockState.Used → rangesDisjoint b1 b2)

/-- `TilesFrom a l b`: the blocks of `l` are consecutive `Used` blocks of
chunk 0 exactly covering the byte range from `a` to `b`. -/
def TilesFrom (a : Nat) : List AllocatedBlock → Nat → Prop
  | [], b => a = b
  | blk :: rest, b =>
    blk.ptr = a ∧ blk.mark = BlockState.Used ∧ blk.chunk_idx = 0 ∧
    TilesFrom (a + blk.size) rest b

/-- State invariant for allocation sequences served from the initial
chunk: one chunk based at `P` with `T` bytes handed out, the cached
next-free index still 0, and the block table one `Unused` (or, on exact
fill, `Used`) tail block plus `Used` blocks tiling the range handed out. -/
def C1Inv (P T : Nat) (gc : GC) : Prop :=
  0 < P ∧
  gc.m_chunks = [⟨P, T, CHUNK_SIZE⟩] ∧
  gc.m_current_chunk_idx = 0 ∧
  gc.m_next_free_allocated_block_idx = 0 ∧
  T ≤ CHUNK_SIZE ∧
  ((T < CHUNK_SIZE ∧
    ∃ tail, gc.m_allocs = ⟨P + T, CHUNK_SIZE - T, BlockState.Unused, 0⟩ :: tail ∧
      TilesFrom P tail (P + T)) ∨
   (T = CHUNK_SIZE ∧
    ∃ s tail, 0 < s ∧ s ≤ CHUNK_SIZE ∧
      gc.m_allocs = ⟨P + (CHUNK_SIZE - s), s, BlockState.Used, 0⟩ :: tail ∧
      TilesFrom P tail (P + (CHUNK_SIZE - s))))

/-! ## Basic lemmas about the list helpers -/

theorem modifyIdx_length {α : Type} (l : List α) (i : Nat) (f : α → α) :
    (modifyIdx l i f).length = l.length := by
  induction l generalizing i with
  | nil => rfl
  | cons x xs ih =>
    cases i with
    | zero => rfl
    | succ j => simpa [modifyIdx] using ih j

theorem modifyIdx_get_self {α : Type} (l : List α) (i : Nat) (f : α → α) :
    (modifyIdx l i f)[i]? = (l[i]?).map f := by
  induction l generalizing i with
  | nil => simp [modifyIdx]
  | cons x xs ih =>
    cases i with
    | zero => simp [modifyIdx]
    | succ j => simpa [modifyIdx] using ih j

theorem modifyIdx_get_other {α : Type} (l : List α) (i j : Nat) (f : α → α)
    (h : i ≠ j) : (modifyIdx l i f)[j]? = l[j]? := by
  induction l generalizing i j with
  | nil => simp [modifyIdx]
  | cons x xs ih =>
    cases i with
    | zero =>
      cases j with
      | zero => exact absurd rfl h
      | succ j' => simp [modifyIdx]
    | succ i' =>
      cases j with
      | zero => simp [modifyIdx]
      | succ j' =>
        simp only [modifyIdx, List.getElem?_cons_succ]
        exact ih i' j' (by omega)

/-! ## Claim C1, counterexample -/

/-- C1 (counterexample): the sequence `allocate CHUNK_SIZE; allocate 0`
has total requested bytes `CHUNK_SIZE + 0`, which fits the initial chunk
(based at 4096), yet its second call finds no `Unused` block (the first
call flipped the whole-chunk block to `Used`), acquires a fresh chunk
from the OS (here at 7777777) and returns an address outside the initial
chunk's byte range. -/
theorem c1_zero_size_counterexample :
    CHUNK_SIZE + 0 ≤ CHUNK_SIZE ∧
    ((GC.init 4096).bind
        (fun gc0 => allocSeq gc0 [(CHUNK_SIZE, 0), (0, 7777777)])).map
        Prod.fst = some [4096, 7777777] ∧
    ¬(7777777 < 4096 + CHUNK_SIZE) := by
  refine ⟨by simp, by decide, by decide⟩

/-! ## Claim C2, counterexample -/

/-- C2 (counterexample): allocate one 16-byte block B (its base is the
returned 4096); the scanned stack is empty, so no stack word equals B's
base.  After `collect()` B is `Freed` — not `Unused` as the claim states
— because releasing B dropped its chunk's used-byte counter to 0, so the
chunk-release phase freed the chunk and re-marked B. -/
theorem c2_released_block_freed_counterexample :
    ((GC.init 4096).bind (fun gc0 => (allocate 0 16 gc0).toOption)).map
        (fun r => (r.1,
          r.2.m_allocs[1]?,
          ((collect [] r.2).m_allocs[1]?).map AllocatedBlock.mark)) =
      some (4096, some ⟨4096, 16, BlockState.Used, 0⟩, some BlockState.Freed) ∧
    BlockState.Freed ≠ BlockState.Unused := by
  exact ⟨by decide, by decide⟩

/-! ## Claim C3: evaluation at the failing input -/

/-- C3 (code evaluation at the failing input): from a fresh collector,
`allocate (CHUNK_SIZE + 5)` exhausts the block table and acquires a new
chunk of capacity `CHUNK_SIZE + 5` (at 9000000).  The code then appends
the "remaining unused memory" block with size equal to the *requested*
size (line 184 passes `size`), although the remaining capacity of the
chunk is 0: the appended `Unused` block even extends past the chunk's
end. -/
theorem c3_remainder_block_eval :
    ((GC.init 4096).bind
        (fun gc0 => (allocate 9000000 (CHUNK_SIZE + 5) gc0).toOption)) =
      some (9000000,
        ⟨[⟨4096, CHUNK_SIZE, BlockState.Unused, 0⟩,
          ⟨9000000, CHUNK_SIZE + 5, BlockState.Used, 1⟩,
          ⟨9000000 + (CHUNK_SIZE + 5), CHUNK_SIZE + 5, BlockState.Unused, 1⟩],
         [⟨4096, 0, CHUNK_SIZE⟩, ⟨9000000, CHUNK_SIZE + 5, CHUNK_SIZE + 5⟩],
         1, 2⟩) ∧
    ¬(9000000 + (CHUNK_SIZE + 5) + (CHUNK_SIZE + 5) ≤ 9000000 + (CHUNK_SIZE + 5)) := by
  exact ⟨by decide, by decide⟩

/-! ## Claim C6, counterexample -/

/-- C6 (counterexample): two blocks share the base address 8 (a `Freed`
coalescing corpse retains its base, line 336 clears only mark and size).
Scanning the single stack word 8, `std::find_if` stops at the first
block, so the second block — whose base also equals the scanned word —
is *not* incremented: its mark stays 0 instead of 0 + 1. -/
theorem c6_duplicate_base_counterexample :
    ((scan_stack [8]
        ⟨[⟨8, 0, BlockState.Freed, 0⟩, ⟨8, 16, BlockState.Used, 0⟩],
         [], 0, 0⟩).m_allocs[1]?).map AllocatedBlock.mark = some 0 ∧
    (0 : Int) ≠ 0 + 1 := by
  exact ⟨by decide, by decide⟩

/-! ## Claim C8, counterexample -/

/-- C8 (counterexample): two adjacent `Unused` blocks b1 = (4096, 16)
and b2 = (4096 + 16, 16) exist, but their chunk's used-byte counter is
0, so `collect()` releases the chunk first and marks both blocks `Freed`
— nothing is merged — and a subsequent `allocate (16 + 16)` does acquire
a new chunk and returns its base 555000, not 4096. -/
theorem c8_empty_chunk_counterexample :
    (collect [] ⟨[⟨4096, 16, BlockState.Unused, 0⟩,
                  ⟨4096 + 16, 16, BlockState.Unused, 0⟩],
                 [⟨4096, 0, CHUNK_SIZE⟩], 0, 0⟩).m_allocs.all
      (fun b => b.mark == BlockState.Freed) = true ∧
    ((allocate 555000 (16 + 16)
        (collect [] ⟨[⟨4096, 16, BlockState.Unused, 0⟩,
                      ⟨4096 + 16, 16, BlockState.Unused, 0⟩],
                     [⟨4096, 0, CHUNK_SIZE⟩], 0, 0⟩)).toOption).map
        (fun r => (r.1, r.2.m_chunks.length)) = some (555000, 2) ∧
    (555000 : Nat) ≠ 4096 := by
  exact ⟨by decide, by decide, by decide⟩

/-! ## Claim C9 -/

/-- C9: `allocate` fails if and only if it reaches the point of
requesting a new chunk (no cached or scanned block satisfied the
request, i.e. the `pointer` local is still null) and the OS allocator
returns a null pointer; and the arena's chunk acquisition for a request
of `size` bytes asks the OS for `size_to_allocate size =
max size CHUNK_SIZE` bytes.  (A failed request is made exactly once —
`alloc_chunk` is called at most once per `allocate` — and not retried.) -/
theorem c9_allocation_failure_iff (gc : GC) (os size : Nat) :
    ((∃ e, allocate os size gc = Except.error e) ↔
      ((alloc_search size gc).1 = 0 ∧ os = 0)) ∧
    size_to_allocate size = max size CHUNK_SIZE := by
  constructor
  · unfold allocate alloc_chunk
    by_cases h0 : (alloc_search size gc).1 = 0
    · by_cases hos : os = 0
      · simp [h0, hos]
      · simp [h0, hos]
    · simp [h0]
  · unfold size_to_allocate
    rcases Nat.lt_or_ge size CHUNK_SIZE with h | h
    · simp [h, Nat.max_eq_right (Nat.le_of_lt h)]
    · simp [Nat.not_lt.mpr h, Nat.max_eq_left h]

/-! ## Claim C10 -/

theorem scanWord_no_match (allocs : List AllocatedBlock) (w : Nat)
    (h : ∀ b ∈ allocs, b.ptr ≠ w) : scanWord allocs w = allocs := by
  induction allocs with
  | nil => rfl
  | cons b rest ih =>
    have hb : b.ptr ≠ w := h b (by simp)
    simp only [scanWord, if_neg hb]
    rw [ih (fun b' hb' => h b' (by simp [hb']))]

theorem scan_stack_no_match (stack : List Nat) (allocs : List AllocatedBlock)
    (chunks : List Chunk) (ci nf : Nat)
    (h : ∀ w ∈ stack, ∀ b ∈ allocs, b.ptr ≠ w) :
    scan_stack stack ⟨allocs, chunks, ci, nf⟩ = ⟨allocs, chunks, ci, nf⟩ := by
  unfold scan_stack
  induction stack with
  | nil => rfl
  | cons w rest ih =>
    simp only [List.foldl_cons]
    rw [scanWord_no_match allocs w (h w (by simp)), ih]
    intro w' hw' b hb
    exact h w' (by simp [hw']) b hb

/-- C10: a `collect()` straight after construction (no successful
`allocate` yet), with no scanned stack word equal to the initial chunk's
base `P`: the initial chunk's used-byte counter is still 0 from
construction, so the chunk-release phase frees the chunk (its fields are
zeroed) and marks the single full-chunk `Unused` block as `Freed` with a
nulled address — while the next-free-block cache still holds index 0,
which is exactly that now-`Freed` block. -/
theorem c10_initial_chunk_freed (P : Nat) (stack : List Nat) (gc0 : GC)
    (hP : P ≠ 0) (hinit : GC.init P = some gc0)
    (hstack : ∀ w ∈ stack, w ≠ P) :
    collect stack gc0 =
      ⟨[⟨0, CHUNK_SIZE, BlockState.Freed, 0⟩], [⟨0, 0, 0⟩], 0, 0⟩ := by
  have hgc0 : gc0 = ⟨[⟨P, CHUNK_SIZE, BlockState.Unused, 0⟩],
      [⟨P, 0, CHUNK_SIZE⟩], 0, 0⟩ := by
    unfold GC.init alloc_chunk at hinit
    rw [if_pos hP] at hinit
    simp only [Option.some.injEq] at hinit
    exact hinit.symm
  subst hgc0
  unfold collect
  have hreset : resetMarks ⟨[⟨P, CHUNK_SIZE, BlockState.Unused, 0⟩],
      [⟨P, 0, CHUNK_SIZE⟩], 0, 0⟩ =
      ⟨[⟨P, CHUNK_SIZE, BlockState.Unused, 0⟩], [⟨P, 0, CHUNK_SIZE⟩], 0, 0⟩ := by
    simp [resetMarks, BlockState.Unused]
  rw [hreset]
  rw [scan_stack_no_match stack _ _ _ _ (by
    intro w hw b hb
    simp only [List.mem_singleton] at hb
    subst hb
    simpa using (fun h => hstack w hw h.symm))]
  simp [sweep, sweepLoop, BlockState.Unused, freeEmptyChunks, freeEmptyLoop,
    free_chunk, combine_unused_blocks, combineOuter, BlockState.Freed]

/-- C10 witness at a concrete input. -/
theorem c10_initial_chunk_freed_witness :
    collect [1, 2, 3]
      ⟨[⟨4096, CHUNK_SIZE, BlockState.Unused, 0⟩], [⟨4096, 0, CHUNK_SIZE⟩], 0, 0⟩ =
      ⟨[⟨0, CHUNK_SIZE, BlockState.Freed, 0⟩], [⟨0, 0, 0⟩], 0, 0⟩ :=
  c10_initial_chunk_freed 4096 [1, 2, 3] _ (by decide) (by rfl) (by decide)

/-! ## Claim C5 -/

/-- C5: when the cached next-free block is `Unused` and large enough,
`allocate` returns that block's current base; the owning chunk's
used-byte counter grows by the requested size; on an exact size match
the block just flips to `Used`, otherwise the block's base advances and
its size shrinks by the requested size (its mark — `Unused` — is left
untouched) and a new `Used` entry covering the original base with the
requested size is appended. -/
theorem c5_fast_path (gc : GC) (os size : Nat) (nfb : AllocatedBlock) (c : Chunk)
    (hget : gc.m_allocs[gc.m_next_free_allocated_block_idx]? = some nfb)
    (hmark : nfb.mark = BlockState.Unused)
    (hsize : size ≤ nfb.size)
    (hptr : nfb.ptr ≠ 0)
    (hc : gc.m_chunks[nfb.chunk_idx]? = some c) :
    ∃ gc', allocate os size gc = Except.ok (nfb.ptr, gc') ∧
      gc'.m_chunks[nfb.chunk_idx]? = some { c with used_size := c.used_size + size } ∧
      gc'.m_current_chunk_idx = gc.m_current_chunk_idx ∧
      gc'.m_next_free_allocated_block_idx = gc.m_next_free_allocated_block_idx ∧
      (size = nfb.size →
        gc'.m_allocs = modifyIdx gc.m_allocs gc.m_next_free_allocated_block_idx
          (fun b => { b with mark := BlockState.Used })) ∧
      (size < nfb.size →
        gc'.m_allocs = modifyIdx gc.m_allocs gc.m_next_free_allocated_block_idx
          (fun b => { b with ptr := b.ptr + size, size := b.size - size })
          ++ [⟨nfb.ptr, size, BlockState.Used, nfb.chunk_idx⟩]) := by
  have hchunks :
      (modifyIdx gc.m_chunks nfb.chunk_idx
        (fun ck => { ck with used_size := ck.used_size + size }))[nfb.chunk_idx]? =
      some { c with used_size := c.used_size + size } := by
    rw [modifyIdx_get_self, hc]
    rfl
  unfold allocate alloc_search
  rw [hget]
  simp only [if_pos (And.intro hmark hsize)]
  by_cases hlt : size < nfb.size
  · simp only [if_pos hlt, if_neg hptr]
    refine ⟨_, rfl, hchunks, rfl, rfl, ?_, ?_⟩
    · intro he
      omega
    · intro _
      simp [BlockState.Used]
  · simp only [if_neg hlt, if_neg hptr]
    refine ⟨_, rfl, hchunks, rfl, rfl, ?_, ?_⟩
    · intro _
      simp [BlockState.Used]
    · intro hl
      exact absurd hl hlt

/-- C5 witness at a concrete input. -/
theorem c5_fast_path_witness :
    ∃ gc', allocate 0 40 ⟨[⟨4096, 100, BlockState.Unused, 0⟩],
        [⟨4096, 0, CHUNK_SIZE⟩], 0, 0⟩ = Except.ok (4096, gc') ∧
      gc'.m_chunks[(0 : Nat)]? = some { ptr := 4096, used_size := 0 + 40, max_size := CHUNK_SIZE } ∧
      gc'.m_current_chunk_idx = 0 ∧
      gc'.m_next_free_allocated_block_idx = 0 ∧
      ((40 : Nat) = 100 →
        gc'.m_allocs = modifyIdx [⟨4096, 100, BlockState.Unused, 0⟩] 0
          (fun b => { b with mark := BlockState.Used })) ∧
      ((40 : Nat) < 100 →
        gc'.m_allocs = modifyIdx [⟨4096, 100, BlockState.Unused, 0⟩] 0
          (fun b => { b with ptr := b.ptr + 40, size := b.size - 40 })
          ++ [⟨4096, 40, BlockState.Used, 0⟩]) :=
  c5_fast_path _ 0 40 ⟨4096, 100, BlockState.Unused, 0⟩ ⟨4096, 0, CHUNK_SIZE⟩
    (by rfl) (by rfl) (by decide) (by decide) (by rfl)

/-! ## Claim C4 -/

theorem qualifiesb_iff (size : Nat) (b : AllocatedBlock) :
    qualifiesb size b = true ↔ (b.mark = BlockState.Unused ∧ size ≤ b.size) := by
  simp [qualifiesb]

theorem slowLoop_blocks (size : Nat) (l : List AllocatedBlock)
    (chunks : List Chunk) (p : Nat) :
    (slowLoop size l chunks p).1 =
      l.map (fun b => if b.mark = BlockState.Unused ∧ size ≤ b.size then
        { b with ptr := b.ptr + size, size := b.size - size } else b) := by
  induction l generalizing chunks p with
  | nil => rfl
  | cons b rest ih =>
    by_cases h : b.mark = BlockState.Unused ∧ size ≤ b.size
    · simp [slowLoop, if_pos h, ih]
    · simp [slowLoop, if_neg h, ih]

theorem slowLoop_appended (size : Nat) (l : List AllocatedBlock)
    (chunks : List Chunk) (p : Nat) :
    (slowLoop size l chunks p).2.1 =
      (l.filter (qualifiesb size)).map
        (fun b => ⟨b.ptr, size, BlockState.Used, b.chunk_idx⟩) := by
  induction l generalizing chunks p with
  | nil => rfl
  | cons b rest ih =>
    by_cases h : b.mark = BlockState.Unused ∧ size ≤ b.size
    · simp [slowLoop, if_pos h, List.filter_cons,
        (qualifiesb_iff size b).mpr h, ih]
    · have hq : ¬ qualifiesb size b = true := fun hc => h ((qualifiesb_iff size b).mp hc)
      simp [slowLoop, if_neg h, List.filter_cons, hq, ih]

theorem slowLoop_ptr_no_qual (size : Nat) (l : List AllocatedBlock)
    (chunks : List Chunk) (p : Nat)
    (h : ∀ b ∈ l, ¬(b.mark = BlockState.Unused ∧ size ≤ b.size)) :
    (slowLoop size l chunks p).2.2.2 = p := by
  induction l generalizing chunks p with
  | nil => rfl
  | cons b rest ih =>
    have hb := h b (by simp)
    simp only [slowLoop, if_neg hb]
    exact ih chunks p (fun b' hb' => h b' (by simp [hb']))

theorem slowLoop_ptr_qual (size : Nat) (l : List AllocatedBlock)
    (chunks : List Chunk) (p : Nat)
    (h : ∃ b ∈ l, b.mark = BlockState.Unused ∧ size ≤ b.size) :
    ∃ b ∈ l, (b.mark = BlockState.Unused ∧ size ≤ b.size) ∧
      (slowLoop size l chunks p).2.2.2 = b.ptr := by
  induction l generalizing chunks p with
  | nil => simp at h
  | cons b rest ih =>
    by_cases hb : b.mark = BlockState.Unused ∧ size ≤ b.size
    · simp only [slowLoop, if_neg, if_pos hb]
      by_cases hr : ∃ b' ∈ rest, b'.mark = BlockState.Unused ∧ size ≤ b'.size
      · rcases ih _ b.ptr hr with ⟨b', hb'mem, hb'q, hb'eq⟩
        exact ⟨b', by simp [hb'mem], hb'q, hb'eq⟩
      · have : ∀ b' ∈ rest, ¬(b'.mark = BlockState.Unused ∧ size ≤ b'.size) := by
          intro b' hb' hq
          exact hr ⟨b', hb', hq⟩
        rw [slowLoop_ptr_no_qual size rest _ _ this]
        exact ⟨b, by simp, hb, rfl⟩
    · simp only [slowLoop, if_neg hb]
      have hr : ∃ b' ∈ rest, b'.mark = BlockState.Unused ∧ size ≤ b'.size := by
        rcases h with ⟨b', hb'mem, hb'q⟩
        rcases List.mem_cons.mp hb'mem with he | hm
        · exact absurd (he ▸ hb'q) hb
        · exact ⟨b', hm, hb'q⟩
      rcases ih chunks p hr with ⟨b', hb'mem, hb'q, hb'eq⟩
      exact ⟨b', by simp [hb'mem], hb'q, hb'eq⟩

/-- C4: when the cached next-free block misses (not `Unused`, or too
small), the slow-path scan does not stop at the first fitting `Unused`
block: *every* `Unused` block whose size is at least the requested size
has its base advanced and its size shrunk by the requested size, and one
new `Used` entry (original base, requested size) is appended per such
block — stated for any table with two or more qualifying blocks. -/
theorem c4_slow_path_splits_all (gc : GC) (os size : Nat)
    (hmiss : ∀ nfb, gc.m_allocs[gc.m_next_free_allocated_block_idx]? = some nfb →
      ¬(nfb.mark = BlockState.Unused ∧ size ≤ nfb.size))
    (hptr : ∀ b ∈ gc.m_allocs, b.mark = BlockState.Unused → size ≤ b.size →
      b.ptr ≠ 0)
    (htwo : 2 ≤ (gc.m_allocs.filter (qualifiesb size)).length) :
    ∃ p gc', allocate os size gc = Except.ok (p, gc') ∧
      gc'.m_allocs =
        gc.m_allocs.map (fun b =>
          if b.mark = BlockState.Unused ∧ size ≤ b.size then
            { b with ptr := b.ptr + size, size := b.size - size } else b)
        ++ (gc.m_allocs.filter (qualifiesb size)).map
            (fun b => ⟨b.ptr, size, BlockState.Used, b.chunk_idx⟩) ∧
      gc'.m_allocs.length =
        gc.m_allocs.length + (gc.m_allocs.filter (qualifiesb size)).length := by
  have hqual : ∃ b ∈ gc.m_allocs, b.mark = BlockState.Unused ∧ size ≤ b.size := by
    have hne : gc.m_allocs.filter (qualifiesb size) ≠ [] := by
      intro hnil
      rw [hnil] at htwo
      simp at htwo
    rcases List.exists_mem_of_ne_nil _ hne with ⟨b, hb⟩
    have hmem := List.mem_of_mem_filter hb
    have hq := List.of_mem_filter hb
    exact ⟨b, hmem, (qualifiesb_iff size b).mp hq⟩
  have hsearch : alloc_search size gc =
      ((slowLoop size gc.m_allocs gc.m_chunks 0).2.2.2,
       { gc with
          m_allocs := (slowLoop size gc.m_allocs gc.m_chunks 0).1 ++
            (slowLoop size gc.m_allocs gc.m_chunks 0).2.1,
          m_chunks := (slowLoop size gc.m_allocs gc.m_chunks 0).2.2.1 }) := by
    unfold alloc_search
    cases hg : gc.m_allocs[gc.m_next_free_allocated_block_idx]? with
    | none => rfl
    | some nfb => simp only [if_neg (hmiss nfb hg)]
  have hp0 : (slowLoop size gc.m_allocs gc.m_chunks 0).2.2.2 ≠ 0 := by
    rcases slowLoop_ptr_qual size gc.m_allocs gc.m_chunks 0 hqual with
      ⟨b, hbmem, hbq, hbeq⟩
    rw [hbeq]
    exact hptr b hbmem hbq.1 hbq.2
  refine ⟨(slowLoop size gc.m_allocs gc.m_chunks 0).2.2.2,
    { gc with
        m_allocs := (slowLoop size gc.m_allocs gc.m_chunks 0).1 ++
          (slowLoop size gc.m_allocs gc.m_chunks 0).2.1,
        m_chunks := (slowLoop size gc.m_allocs gc.m_chunks 0).2.2.1 },
    ?_, ?_, ?_⟩
  · unfold allocate
    rw [hsearch]
    simp only [if_neg hp0]
  · simp only [slowLoop_blocks, slowLoop_appended]
  · simp only [slowLoop_blocks, slowLoop_appended, List.length_append,
      List.length_map]

/-- C4 witness at a concrete input: the cached block (index 0) is
`Used`, and both remaining `Unused` blocks fit the 8-byte request; the
scan splits both and appends two `Used` entries. -/
theorem c4_slow_path_splits_all_witness :
    ∃ p gc', allocate 0 8 ⟨[⟨500, 8, BlockState.Used, 0⟩,
        ⟨1000, 16, BlockState.Unused, 0⟩, ⟨2000, 24, BlockState.Unused, 0⟩],
        [⟨1000, 0, CHUNK_SIZE⟩], 0, 0⟩ = Except.ok (p, gc') ∧
      gc'.m_allocs =
        ([⟨500, 8, BlockState.Used, 0⟩, ⟨1000, 16, BlockState.Unused, 0⟩,
          ⟨2000, 24, BlockState.Unused, 0⟩] : List AllocatedBlock).map (fun b =>
          if b.mark = BlockState.Unused ∧ 8 ≤ b.size then
            { b with ptr := b.ptr + 8, size := b.size - 8 } else b)
        ++ (([⟨500, 8, BlockState.Used, 0⟩, ⟨1000, 16, BlockState.Unused, 0⟩,
              ⟨2000, 24, BlockState.Unused, 0⟩] : List AllocatedBlock).filter
              (qualifiesb 8)).map
            (fun b => ⟨b.ptr, 8, BlockState.Used, b.chunk_idx⟩) ∧
      gc'.m_allocs.length =
        ([⟨500, 8, BlockState.Used, 0⟩, ⟨1000, 16, BlockState.Unused, 0⟩,
          ⟨2000, 24, BlockState.Unused, 0⟩] : List AllocatedBlock).length +
        (([⟨500, 8, BlockState.Used, 0⟩, ⟨1000, 16, BlockState.Unused, 0⟩,
           ⟨2000, 24, BlockState.Unused, 0⟩] : List AllocatedBlock).filter
           (qualifiesb 8)).length :=
  c4_slow_path_splits_all _ 0 8
    (by
      intro nfb hget hc
      simp only [List.getElem?_cons_zero, Option.some.injEq] at hget
      rw [← hget] at hc
      exact absurd hc.1 (by decide))
    (by decide)
    (by decide)

/-! ## Claim C6, amended theorem -/

theorem scanWord_ptr (l : List AllocatedBlock) (w : Nat) (j : Nat) :
    ((scanWord l w)[j]?).map AllocatedBlock.ptr =
      (l[j]?).map AllocatedBlock.ptr := by
  induction l generalizing j with
  | nil => rfl
  | cons x rest ih =>
    by_cases hx : x.ptr = w
    · simp only [scanWord, if_pos hx]
      cases j with
      | zero => simp
      | succ j' => simp
    · simp only [scanWord, if_neg hx]
      cases j with
      | zero => simp
      | succ j' => simpa using ih j'

theorem scanWord_get_at (l : List AllocatedBlock) (w : Nat) (i : Nat)
    (b : AllocatedBlock) (hget : l[i]? = some b)
    (hfirst : ∀ j b', j < i → l[j]? = some b' → b'.ptr ≠ b.ptr) :
    (scanWord l w)[i]? =
      some (if w = b.ptr then { b with mark := b.mark + 1 } else b) := by
  induction l generalizing i with
  | nil => simp at hget
  | cons x rest ih =>
    cases i with
    | zero =>
      have hxb : x = b := by simpa using hget
      by_cases hx : x.ptr = w
      · have hw : w = b.ptr := by rw [← hxb, hx]
        simp only [scanWord, hxb, if_pos hw]
        rw [if_pos hw.symm]
        simp
      · have hw : ¬ w = b.ptr := by
          rw [← hxb]
          exact fun h => hx h.symm
        have hbw : ¬ b.ptr = w := fun h => hw h.symm
        simp only [scanWord, hxb, if_neg hw]
        rw [if_neg hbw]
        simp
    | succ j =>
      simp only [List.getElem?_cons_succ] at hget
      by_cases hx : x.ptr = w
      · have hxb : x.ptr ≠ b.ptr := hfirst 0 x (Nat.succ_pos j) (by simp)
        have hwb : ¬ w = b.ptr := fun h => hxb (h ▸ hx)
        simp only [scanWord, if_pos hx, List.getElem?_cons_succ, if_neg hwb]
        exact hget
      · simp only [scanWord, if_neg hx, List.getElem?_cons_succ]
        exact ih j hget (fun j' b' hj' hg' =>
          hfirst (j' + 1) b' (Nat.succ_lt_succ hj') (by simpa using hg'))

theorem scan_marks_first_unique (stack : List Nat) (l : List AllocatedBlock)
    (i : Nat) (b : AllocatedBlock) (hget : l[i]? = some b)
    (hfirst : ∀ j b', j < i → l[j]? = some b' → b'.ptr ≠ b.ptr) :
    (stack.foldl scanWord l)[i]? =
      some { b with mark :=
        b.mark + ((stack.filter (fun w => w == b.ptr)).length : Int) } := by
  induction stack generalizing l b with
  | nil =>
    simpa using hget
  | cons w rest ih =>
    simp only [List.foldl_cons]
    have hget' := scanWord_get_at l w i b hget hfirst
    have hfirst' : ∀ j b', j < i → (scanWord l w)[j]? = some b' →
        b'.ptr ≠ (if w = b.ptr then { b with mark := b.mark + 1 } else b).ptr := by
      intro j b' hj hg'
      have hp := scanWord_ptr l w j
      rw [hg'] at hp
      have hbptr : (if w = b.ptr then { b with mark := b.mark + 1 } else b).ptr
          = b.ptr := by
        by_cases hw : w = b.ptr
        · simp [if_pos hw]
        · simp [if_neg hw]
      rw [hbptr]
      cases hl : l[j]? with
      | none => rw [hl] at hp; simp at hp
      | some bo =>
        rw [hl] at hp
        simp at hp
        have := hfirst j bo hj hl
        omega
    have := ih (scanWord l w) _ hget' hfirst'
    rw [this]
    by_cases hw : w = b.ptr
    · have hwb : (w == b.ptr) = true := by simpa using hw
      simp only [if_pos hw, List.filter_cons, hwb, if_pos]
      congr 1
      simp only [List.length_cons]
      push_cast
      ring_nf
    · have hwb : ¬ (w == b.ptr) = true := by simpa using hw
      simp only [if_neg hw, List.filter_cons]
      rw [if_neg hwb]

/-- C6 (amended): each scanned stack word is compared against block
bases in table order and `std::find_if` stops at the first hit, so for a
block whose base is not shared by any earlier table entry, `scan_stack`
adds to its mark exactly the number of scanned words equal to its base
(one per aliasing stack slot); a block whose base also occurs earlier in
the table receives none of those increments. -/
theorem c6_first_match_marking (gc : GC) (stack : List Nat) (i : Nat)
    (b : AllocatedBlock) (hget : gc.m_allocs[i]? = some b)
    (hfirst : ∀ j b', j < i → gc.m_allocs[j]? = some b' → b'.ptr ≠ b.ptr) :
    (scan_stack stack gc).m_allocs[i]? =
      some { b with mark :=
        b.mark + ((stack.filter (fun w => w == b.ptr)).length : Int) } := by
  unfold scan_stack
  exact scan_marks_first_unique stack gc.m_allocs i b hget hfirst

/-- C6 witness at a concrete input: block 1's base 200 is unique in the
table; the scanned words contain it twice, and its mark grows by 2. -/
theorem c6_first_match_marking_witness :
    (scan_stack [200, 100, 200]
      ⟨[⟨100, 8, BlockState.Used, 0⟩, ⟨200, 8, BlockState.Used, 0⟩], [], 0, 0⟩).m_allocs[1]? =
      some ⟨200, 8,
        BlockState.Used +
          ((([200, 100, 200] : List Nat).filter (fun w => w == 200)).length : Int),
        0⟩ :=
  c6_first_match_marking _ [200, 100, 200] 1 ⟨200, 8, BlockState.Used, 0⟩
    (by rfl)
    (by
      intro j b' hj hg'
      have hj0 : j = 0 := by omega
      subst hj0
      simp only [List.getElem?_cons_zero, Option.some.injEq] at hg'
      subst hg'
      decide)

/-! ## Claim C2: sweep lemmas, scenario, amended theorem -/

theorem alloc_fast_split (gc : GC) (os size : Nat) (nfb : AllocatedBlock)
    (hget : gc.m_allocs[gc.m_next_free_allocated_block_idx]? = some nfb)
    (hmark : nfb.mark = BlockState.Unused)
    (hlt : size < nfb.size) (hptr : nfb.ptr ≠ 0) :
    allocate os size gc = Except.ok (nfb.ptr,
      { gc with
          m_allocs := modifyIdx gc.m_allocs gc.m_next_free_allocated_block_idx
            (fun b => { b with ptr := b.ptr + size, size := b.size - size })
            ++ [⟨nfb.ptr, size, 0, nfb.chunk_idx⟩],
          m_chunks := modifyIdx gc.m_chunks nfb.chunk_idx
            (fun c => { c with used_size := c.used_size + size }) }) := by
  unfold allocate alloc_search
  rw [hget]
  simp only [if_pos (And.intro hmark (Nat.le_of_lt hlt)), if_pos hlt,
    if_neg hptr]

theorem alloc_fast_exact (gc : GC) (os size : Nat) (nfb : AllocatedBlock)
    (hget : gc.m_allocs[gc.m_next_free_allocated_block_idx]? = some nfb)
    (hmark : nfb.mark = BlockState.Unused)
    (heq : size = nfb.size) (hptr : nfb.ptr ≠ 0) :
    allocate os size gc = Except.ok (nfb.ptr,
      { gc with
          m_allocs := modifyIdx gc.m_allocs gc.m_next_free_allocated_block_idx
            (fun b => { b with mark := 0 }),
          m_chunks := modifyIdx gc.m_chunks nfb.chunk_idx
            (fun c => { c with used_size := c.used_size + size }) }) := by
  unfold allocate alloc_search
  rw [hget]
  simp only [if_pos (And.intro hmark (Nat.le_of_eq heq)),
    if_neg (by omega : ¬ size < nfb.size), if_neg hptr]

theorem sweepLoop_get (allocs : List AllocatedBlock) (chunks : List Chunk)
    (i : Nat) (b : AllocatedBlock) (hget : allocs[i]? = some b) :
    (sweepLoop allocs chunks).1[i]? =
      some (if b.mark = 0 then { b with mark := BlockState.Unused } else b) := by
  induction allocs generalizing i chunks with
  | nil => simp at hget
  | cons x rest ih =>
    cases i with
    | zero =>
      have hxb : x = b := by simpa using hget
      subst hxb
      by_cases hx : x.mark = 0
      · simp only [sweepLoop, if_pos hx, realease_block, List.getElem?_cons_zero]
      · simp only [sweepLoop, if_neg hx, List.getElem?_cons_zero]
    | succ j =>
      simp only [List.getElem?_cons_succ] at hget
      by_cases hx : x.mark = 0
      · simp only [sweepLoop, if_pos hx, realease_block, List.getElem?_cons_succ]
        exact ih _ j hget
      · simp only [sweepLoop, if_neg hx, List.getElem?_cons_succ]
        exact ih _ j hget

theorem releasedBytes_cons (x : AllocatedBlock) (rest : List AllocatedBlock)
    (k : Nat) :
    releasedBytes (x :: rest) k =
      (if x.mark = 0 ∧ x.chunk_idx = k then x.size else 0) +
        releasedBytes rest k := by
  by_cases h : x.mark = 0 ∧ x.chunk_idx = k
  · have hb : (x.mark == 0 && x.chunk_idx == k) = true := by
      simp [h.1, h.2]
    simp [releasedBytes, List.filter_cons, hb, if_pos h]
  · have hb : ¬ (x.mark == 0 && x.chunk_idx == k) = true := by
      simpa using fun h1 h2 => h ⟨h1, h2⟩
    simp [releasedBytes, List.filter_cons, hb, if_neg h]

theorem sub_usize_eq_sub (a b : Nat) (hb : b ≤ a) (ha : a < USIZE_MOD) :
    sub_usize a b = a - b := by
  unfold sub_usize USIZE_MOD at *
  omega

theorem sweepLoop_chunks_get (allocs : List AllocatedBlock)
    (chunks : List Chunk) (k : Nat) (c : Chunk) (hget : chunks[k]? = some c)
    (hsz : c.used_size < USIZE_MOD)
    (hle : releasedBytes allocs k ≤ c.used_size) :
    (sweepLoop allocs chunks).2[k]? =
      some { c with used_size := c.used_size - releasedBytes allocs k } := by
  induction allocs generalizing chunks c with
  | nil =>
    simp only [sweepLoop, releasedBytes, List.filter_nil, List.map_nil,
      List.sum_nil, Nat.sub_zero, hget]
  | cons x rest ih =>
    by_cases hx : x.mark = 0
    · simp only [sweepLoop, if_pos hx, realease_block]
      by_cases hk : x.chunk_idx = k
      · rw [releasedBytes_cons, if_pos ⟨hx, hk⟩] at hle
        have hxle : x.size ≤ c.used_size := by omega
        have hget' : (modifyIdx chunks x.chunk_idx
            (fun ck => { ck with used_size := sub_usize ck.used_size x.size }))[k]? =
            some { c with used_size := c.used_size - x.size } := by
          rw [hk, modifyIdx_get_self, hget]
          simp only [Option.map_some']
          rw [sub_usize_eq_sub _ _ hxle hsz]
        have hsz' : c.used_size - x.size < USIZE_MOD := by omega
        have hrle : releasedBytes rest k ≤ c.used_size - x.size := by omega
        rw [ih _ _ hget' hsz' hrle, releasedBytes_cons, if_pos ⟨hx, hk⟩]
        simp only [Option.some.injEq, Chunk.mk.injEq, true_and, and_true]
        omega
      · rw [releasedBytes_cons, if_neg (fun h => hk h.2)] at hle
        have hget' : (modifyIdx chunks x.chunk_idx
            (fun ck => { ck with used_size := sub_usize ck.used_size x.size }))[k]? =
            some c := by
          rw [modifyIdx_get_other _ _ _ _ hk, hget]
        rw [ih _ _ hget' hsz (by omega), releasedBytes_cons,
          if_neg (fun h => hk h.2)]
        simp
    · rw [releasedBytes_cons, if_neg (fun h => hx h.1)] at hle
      simp only [sweepLoop, if_neg hx]
      rw [ih _ _ hget hsz (by omega), releasedBytes_cons,
        if_neg (fun h => hx h.1)]
      simp

theorem c2_scenario_release (P a b pA pB : Nat) (gc0 gc1 gc2 : GC)
    (hP : P ≠ 0) (ha : 0 < a) (hb : 0 < b) (hab : a + b < CHUNK_SIZE)
    (hinit : GC.init P = some gc0)
    (h1 : allocate 0 a gc0 = Except.ok (pA, gc1))
    (h2 : allocate 0 b gc1 = Except.ok (pB, gc2)) :
    pA = P ∧ pB = P + a ∧
    gc2.m_allocs[2]? = some ⟨P + a, b, BlockState.Used, 0⟩ ∧
    gc2.m_chunks = [⟨P, a + b, CHUNK_SIZE⟩] ∧
    (collect [pA] gc2).m_allocs[2]? =
      some ⟨P + a, CHUNK_SIZE - a, BlockState.Unused, 0⟩ ∧
    (collect [pA] gc2).m_chunks = [⟨P, a, CHUNK_SIZE⟩] := by
  have hgc0 : gc0 = ⟨[⟨P, CHUNK_SIZE, BlockState.Unused, 0⟩],
      [⟨P, 0, CHUNK_SIZE⟩], 0, 0⟩ := by
    unfold GC.init alloc_chunk at hinit
    rw [if_pos hP] at hinit
    simp only [Option.some.injEq] at hinit
    exact hinit.symm
  subst hgc0
  have e1 := alloc_fast_split
    ⟨[⟨P, CHUNK_SIZE, BlockState.Unused, 0⟩], [⟨P, 0, CHUNK_SIZE⟩], 0, 0⟩
    0 a ⟨P, CHUNK_SIZE, BlockState.Unused, 0⟩ (by simp) rfl (by simpa using by omega)
    (by simpa using hP)
  rw [e1] at h1
  simp only [Except.ok.injEq, Prod.mk.injEq] at h1
  obtain ⟨hpA, hgc1⟩ := h1
  have hgc1' : gc1 = ⟨[⟨P + a, CHUNK_SIZE - a, BlockState.Unused, 0⟩,
      ⟨P, a, 0, 0⟩], [⟨P, a, CHUNK_SIZE⟩], 0, 0⟩ := by
    rw [← hgc1]
    simp [modifyIdx, BlockState.Unused]
  subst hgc1'
  have e2 := alloc_fast_split
    ⟨[⟨P + a, CHUNK_SIZE - a, BlockState.Unused, 0⟩, ⟨P, a, 0, 0⟩],
     [⟨P, a, CHUNK_SIZE⟩], 0, 0⟩
    0 b ⟨P + a, CHUNK_SIZE - a, BlockState.Unused, 0⟩ (by simp) rfl
    (by simpa using by omega) (by simpa using by omega)
  rw [e2] at h2
  simp only [Except.ok.injEq, Prod.mk.injEq] at h2
  obtain ⟨hpB, hgc2⟩ := h2
  have hgc2' : gc2 = ⟨[⟨P + a + b, CHUNK_SIZE - a - b, BlockState.Unused, 0⟩,
      ⟨P, a, 0, 0⟩, ⟨P + a, b, 0, 0⟩], [⟨P, a + b, CHUNK_SIZE⟩], 0, 0⟩ := by
    rw [← hgc2]
    simp [modifyIdx, BlockState.Unused]
  subst hgc2'
  subst hpA
  subst hpB
  have hne1 : ¬(P + a + b = P) := by omega
  have hreset : resetMarks ⟨[⟨P + a + b, CHUNK_SIZE - a - b, BlockState.Unused, 0⟩,
      ⟨P, a, 0, 0⟩, ⟨P + a, b, 0, 0⟩], [⟨P, a + b, CHUNK_SIZE⟩], 0, 0⟩ =
      ⟨[⟨P + a + b, CHUNK_SIZE - a - b, BlockState.Unused, 0⟩,
        ⟨P, a, 0, 0⟩, ⟨P + a, b, 0, 0⟩], [⟨P, a + b, CHUNK_SIZE⟩], 0, 0⟩ := by
    simp [resetMarks, BlockState.Unused]
  have hscan : scan_stack [P]
      ⟨[⟨P + a + b, CHUNK_SIZE - a - b, BlockState.Unused, 0⟩,
        ⟨P, a, 0, 0⟩, ⟨P + a, b, 0, 0⟩], [⟨P, a + b, CHUNK_SIZE⟩], 0, 0⟩ =
      ⟨[⟨P + a + b, CHUNK_SIZE - a - b, BlockState.Unused, 0⟩,
        ⟨P, a, 1, 0⟩, ⟨P + a, b, 0, 0⟩], [⟨P, a + b, CHUNK_SIZE⟩], 0, 0⟩ := by
    simp [scan_stack, scanWord, hne1]
  have hsweep : sweep
      ⟨[⟨P + a + b, CHUNK_SIZE - a - b, BlockState.Unused, 0⟩,
        ⟨P, a, 1, 0⟩, ⟨P + a, b, 0, 0⟩], [⟨P, a + b, CHUNK_SIZE⟩], 0, 0⟩ =
      ⟨[⟨P + a + b, CHUNK_SIZE - a - b, BlockState.Unused, 0⟩,
        ⟨P, a, 1, 0⟩, ⟨P + a, b, BlockState.Unused, 0⟩], [⟨P, a, CHUNK_SIZE⟩], 0, 0⟩ := by
    have habM : a + b < USIZE_MOD := by
      have h1 : CHUNK_SIZE < USIZE_MOD := by norm_num [CHUNK_SIZE, USIZE_MOD]
      omega
    have hsub : sub_usize (a + b) b = a := by
      rw [sub_usize_eq_sub _ _ (by omega) habM]
      omega
    simp [sweep, sweepLoop, realease_block, modifyIdx, BlockState.Unused, hsub]
  have hane : ¬(a = 0) := by omega
  have hfree : freeEmptyChunks
      ⟨[⟨P + a + b, CHUNK_SIZE - a - b, BlockState.Unused, 0⟩,
        ⟨P, a, 1, 0⟩, ⟨P + a, b, BlockState.Unused, 0⟩], [⟨P, a, CHUNK_SIZE⟩], 0, 0⟩ =
      ⟨[⟨P + a + b, CHUNK_SIZE - a - b, BlockState.Unused, 0⟩,
        ⟨P, a, 1, 0⟩, ⟨P + a, b, BlockState.Unused, 0⟩], [⟨P, a, CHUNK_SIZE⟩], 0, 0⟩ := by
    simp [freeEmptyChunks, freeEmptyLoop, hane]
  have hz1 : ¬(P + a + b = 0) := by omega
  have hz2 : ¬(P + a = 0) := by omega
  have hc1 : ¬(P + a + b + (CHUNK_SIZE - a - b) = P + a + b) := by omega
  have hc2 : ¬(P + a + b + (CHUNK_SIZE - a - b) = P + a) := by omega
  have hc4 : ¬(P + a + (b + (CHUNK_SIZE - a - b)) = P + a) := by omega
  have hsz : b + (CHUNK_SIZE - a - b) = CHUNK_SIZE - a := by omega
  have hc5 : ¬(CHUNK_SIZE - a = 0) := by omega
  have hc6 : ¬(CHUNK_SIZE - a - b = 0) := by omega
  have hcomb : combine_unused_blocks
      ⟨[⟨P + a + b, CHUNK_SIZE - a - b, BlockState.Unused, 0⟩,
        ⟨P, a, 1, 0⟩, ⟨P + a, b, BlockState.Unused, 0⟩], [⟨P, a, CHUNK_SIZE⟩], 0, 0⟩ =
      ⟨[⟨P + a + b, 0, BlockState.Freed, 0⟩,
        ⟨P, a, 1, 0⟩, ⟨P + a, CHUNK_SIZE - a, BlockState.Unused, 0⟩],
       [⟨P, a, CHUNK_SIZE⟩], 0, 0⟩ := by
    simp [combine_unused_blocks, combineOuter, combineInner, are_blocks_adjacent,
      modifyIdx, BlockState.Unused, BlockState.Freed, hz1, hz2, hc1, hc2, hc4,
      hsz, hc5, hc6]
  have hcol : collect [P]
      ⟨[⟨P + a + b, CHUNK_SIZE - a - b, BlockState.Unused, 0⟩,
        ⟨P, a, 0, 0⟩, ⟨P + a, b, 0, 0⟩], [⟨P, a + b, CHUNK_SIZE⟩], 0, 0⟩ =
      ⟨[⟨P + a + b, 0, BlockState.Freed, 0⟩,
        ⟨P, a, 1, 0⟩, ⟨P + a, CHUNK_SIZE - a, BlockState.Unused, 0⟩],
       [⟨P, a, CHUNK_SIZE⟩], 0, 0⟩ := by
    unfold collect
    rw [hreset, hscan, hsweep, hfree, hcomb]
  rw [hcol]
  refine ⟨rfl, rfl, by simp [BlockState.Used], rfl, by simp, rfl⟩

/-- C2 (amended): (i) for every state, every block whose mark is exactly
0 transitions to `Unused` during the sweep while all other blocks
(mark > 0, or the `Unused`/`Freed` sentinels) are left as they are;
(ii) each chunk's used-byte counter has the total size of its mark-0
blocks subtracted — provided that total does not exceed the counter and
the counter is a representable `size_t` value (otherwise the `size_t`
subtraction in `realease_block` wraps modulo `2 ^ 64`, which the scan
can genuinely trigger by re-marking an `Unused` block to 0 so the sweep
releases it twice).  (iii) The "in particular" part holds with the
proviso that the owning chunk keeps live bytes through the sweep: for a
collector holding two allocations A (size a, first) and B (size b,
second) with only A's address on the scanned stack, `collect()` leaves B
`Unused` (coalesced with the free tail, hence size `CHUNK_SIZE - a`) and
the chunk's counter drops from `a + b` to `a` — by exactly B's size.
(Without the proviso the claim fails: if the counter reaches 0, the
chunk-release phase re-marks B as `Freed`, see the counterexample.) -/
theorem c2_sweep_and_release :
    (∀ (allocs : List AllocatedBlock) (chunks : List Chunk) (i : Nat)
        (bk : AllocatedBlock), allocs[i]? = some bk →
      (sweepLoop allocs chunks).1[i]? =
        some (if bk.mark = 0 then { bk with mark := BlockState.Unused } else bk)) ∧
    (∀ (allocs : List AllocatedBlock) (chunks : List Chunk) (k : Nat)
        (c : Chunk), chunks[k]? = some c → c.used_size < USIZE_MOD →
      releasedBytes allocs k ≤ c.used_size →
      (sweepLoop allocs chunks).2[k]? =
        some { c with used_size := c.used_size - releasedBytes allocs k }) ∧
    (∀ (P a b pA pB : Nat) (gc0 gc1 gc2 : GC),
      P ≠ 0 → 0 < a → 0 < b → a + b < CHUNK_SIZE →
      GC.init P = some gc0 → allocate 0 a gc0 = Except.ok (pA, gc1) →
      allocate 0 b gc1 = Except.ok (pB, gc2) →
      (pA = P ∧ pB = P + a ∧
       gc2.m_allocs[2]? = some ⟨P + a, b, BlockState.Used, 0⟩ ∧
       gc2.m_chunks = [⟨P, a + b, CHUNK_SIZE⟩] ∧
       (collect [pA] gc2).m_allocs[2]? =
         some ⟨P + a, CHUNK_SIZE - a, BlockState.Unused, 0⟩ ∧
       (collect [pA] gc2).m_chunks = [⟨P, a, CHUNK_SIZE⟩])) :=
  ⟨sweepLoop_get, sweepLoop_chunks_get,
   fun P a b pA pB gc0 gc1 gc2 hP ha hb hab hi h1 h2 =>
     c2_scenario_release P a b pA pB gc0 gc1 gc2 hP ha hb hab hi h1 h2⟩

/-- C2 witness at a concrete input: P = 4096, a = 16, b = 32. -/
theorem c2_sweep_and_release_witness :
    (4096 : Nat) = 4096 ∧ (4112 : Nat) = 4096 + 16 ∧
    (⟨[⟨4144, 1048528, BlockState.Unused, 0⟩, ⟨4096, 16, 0, 0⟩,
       ⟨4112, 32, 0, 0⟩], [⟨4096, 48, 1048576⟩], 0, 0⟩ : GC).m_allocs[2]? =
      some ⟨4096 + 16, 32, BlockState.Used, 0⟩ ∧
    (⟨[⟨4144, 1048528, BlockState.Unused, 0⟩, ⟨4096, 16, 0, 0⟩,
       ⟨4112, 32, 0, 0⟩], [⟨4096, 48, 1048576⟩], 0, 0⟩ : GC).m_chunks =
      [⟨4096, 16 + 32, CHUNK_SIZE⟩] ∧
    (collect [4096]
      ⟨[⟨4144, 1048528, BlockState.Unused, 0⟩, ⟨4096, 16, 0, 0⟩,
        ⟨4112, 32, 0, 0⟩], [⟨4096, 48, 1048576⟩], 0, 0⟩).m_allocs[2]? =
      some ⟨4096 + 16, CHUNK_SIZE - 16, BlockState.Unused, 0⟩ ∧
    (collect [4096]
      ⟨[⟨4144, 1048528, BlockState.Unused, 0⟩, ⟨4096, 16, 0, 0⟩,
        ⟨4112, 32, 0, 0⟩], [⟨4096, 48, 1048576⟩], 0, 0⟩).m_chunks =
      [⟨4096, 16, CHUNK_SIZE⟩] :=
  c2_sweep_and_release.2.2 4096 16 32 4096 4112
    ⟨[⟨4096, CHUNK_SIZE, BlockState.Unused, 0⟩], [⟨4096, 0, CHUNK_SIZE⟩], 0, 0⟩
    ⟨[⟨4112, 1048560, BlockState.Unused, 0⟩, ⟨4096, 16, 0, 0⟩],
     [⟨4096, 16, 1048576⟩], 0, 0⟩
    ⟨[⟨4144, 1048528, BlockState.Unused, 0⟩, ⟨4096, 16, 0, 0⟩,
      ⟨4112, 32, 0, 0⟩], [⟨4096, 48, 1048576⟩], 0, 0⟩
    (by decide) (by decide) (by decide) (by decide) (by rfl) (by rfl) (by rfl)

/-! ## Claim C7 -/

theorem freeEmptyLoop_chunk (chunks : List Chunk) (i0 : Nat)
    (allocs : List AllocatedBlock) (k : Nat) (c : Chunk)
    (hget : chunks[k]? = some c) (hzero : c.used_size = 0) :
    (freeEmptyLoop chunks i0 allocs).1[k]? = some ⟨0, 0, 0⟩ := by
  induction chunks generalizing i0 allocs k with
  | nil => simp at hget
  | cons c0 rest ih =>
    cases k with
    | zero =>
      have hc0 : c0 = c := by simpa using hget
      subst hc0
      simp only [freeEmptyLoop, if_pos hzero, List.getElem?_cons_zero,
        free_chunk]
    | succ j =>
      simp only [List.getElem?_cons_succ] at hget
      by_cases h0 : c0.used_size = 0
      · simp only [freeEmptyLoop, if_pos h0, List.getElem?_cons_succ]
        exact ih _ _ j hget
      · simp only [freeEmptyLoop, if_neg h0, List.getElem?_cons_succ]
        exact ih _ _ j hget

theorem freeEmptyLoop_blocks_pres (chunks : List Chunk) (i0 : Nat)
    (allocs : List AllocatedBlock) (m : Nat)
    (h : ∀ (p : Nat) (bk : AllocatedBlock), allocs[p]? = some bk → bk.chunk_idx = m →
      bk.mark = BlockState.Freed ∧ bk.ptr = 0) :
    ∀ (p : Nat) (bk : AllocatedBlock), (freeEmptyLoop chunks i0 allocs).2[p]? = some bk →
      bk.chunk_idx = m → bk.mark = BlockState.Freed ∧ bk.ptr = 0 := by
  induction chunks generalizing i0 allocs with
  | nil => simpa [freeEmptyLoop] using h
  | cons c0 rest ih =>
    by_cases h0 : c0.used_size = 0
    · simp only [freeEmptyLoop, if_pos h0]
      refine ih (i0 + 1) _ ?_
      intro p bk hget hcix
      rw [List.getElem?_map] at hget
      cases hl : allocs[p]? with
      | none => rw [hl] at hget; simp at hget
      | some bo =>
        rw [hl] at hget
        simp only [Option.map_some'] at hget
        by_cases hio : bo.chunk_idx = i0
        · rw [if_pos hio] at hget
          have hbk : bk = ⟨0, bo.size, BlockState.Freed, bo.chunk_idx⟩ := by
            simpa using hget.symm
          rw [hbk]
          exact ⟨rfl, rfl⟩
        · rw [if_neg hio] at hget
          have hbk : bk = bo := by simpa using hget.symm
          rw [hbk]
          exact h p bo hl (hbk ▸ hcix)
    · simp only [freeEmptyLoop, if_neg h0]
      exact ih (i0 + 1) _ h

theorem freeEmptyLoop_blocks (chunks : List Chunk) (i0 : Nat)
    (allocs : List AllocatedBlock) (k : Nat) (c : Chunk)
    (hget : chunks[k]? = some c) (hzero : c.used_size = 0) :
    ∀ (p : Nat) (bk : AllocatedBlock), (freeEmptyLoop chunks i0 allocs).2[p]? = some bk →
      bk.chunk_idx = i0 + k → bk.mark = BlockState.Freed ∧ bk.ptr = 0 := by
  induction chunks generalizing i0 allocs k with
  | nil => simp at hget
  | cons c0 rest ih =>
    cases k with
    | zero =>
      have hc0 : c0 = c := by simpa using hget
      subst hc0
      simp only [freeEmptyLoop, if_pos hzero, Nat.add_zero]
      refine freeEmptyLoop_blocks_pres rest (i0 + 1) _ i0 ?_
      intro p bk hg hcix
      rw [List.getElem?_map] at hg
      cases hl : allocs[p]? with
      | none => rw [hl] at hg; simp at hg
      | some bo =>
        rw [hl] at hg
        simp only [Option.map_some'] at hg
        by_cases hio : bo.chunk_idx = i0
        · rw [if_pos hio] at hg
          have hbk : bk = ⟨0, bo.size, BlockState.Freed, bo.chunk_idx⟩ := by
            simpa using hg.symm
          rw [hbk]
          exact ⟨rfl, rfl⟩
        · rw [if_neg hio] at hg
          have hbk : bk = bo := by simpa using hg.symm
          exact absurd (hbk ▸ hcix) hio
    | succ j =>
      simp only [List.getElem?_cons_succ] at hget
      have harith : i0 + (j + 1) = (i0 + 1) + j := by omega
      by_cases h0 : c0.used_size = 0
      · simp only [freeEmptyLoop, if_pos h0]
        intro p bk hg hcix
        exact ih (i0 + 1) _ j hget p bk hg (by omega)
      · simp only [freeEmptyLoop, if_neg h0]
        intro p bk hg hcix
        exact ih (i0 + 1) _ j hget p bk hg (by omega)

theorem combineInner_freed (i p : Nat) (hpi : p ≠ i) :
    ∀ (j fuel : Nat) (allocs : List AllocatedBlock) (bk : AllocatedBlock),
      allocs[p]? = some bk → bk.mark = BlockState.Freed →
      (combineInner i j fuel allocs)[p]? = some bk := by
  intro j fuel
  induction fuel generalizing j with
  | zero => intro allocs bk hget _; simpa [combineInner] using hget
  | succ fuel ih =>
    intro allocs bk hget hm
    simp only [combineInner]
    cases hbi : allocs[i]? with
    | none => exact ih (j + 1) allocs bk hget hm
    | some b1 =>
      cases hbj : allocs[j]? with
      | none => exact ih (j + 1) allocs bk hget hm
      | some b2 =>
        by_cases hcond : b2.mark = BlockState.Unused ∧ are_blocks_adjacent b1 b2
        · simp only [if_pos hcond]
          have hpj : p ≠ j := by
            intro he
            subst he
            rw [hget] at hbj
            obtain rfl : bk = b2 := by simpa using hbj
            rw [hm] at hcond
            exact absurd hcond.1 (by decide)
          refine ih (j + 1) _ bk ?_ hm
          rw [modifyIdx_get_other _ _ _ _ (fun he => hpj he.symm),
            modifyIdx_get_other _ _ _ _ (fun he => hpi he.symm)]
          exact hget
        · simp only [if_neg hcond]
          exact ih (j + 1) allocs bk hget hm

theorem combineOuter_freed :
    ∀ (i fuel : Nat) (allocs : List AllocatedBlock) (p : Nat)
      (bk : AllocatedBlock),
      allocs[p]? = some bk → bk.mark = BlockState.Freed →
      (combineOuter i fuel allocs)[p]? = some bk := by
  intro i fuel
  induction fuel generalizing i with
  | zero => intro allocs p bk hget _; simpa [combineOuter] using hget
  | succ fuel ih =>
    intro allocs p bk hget hm
    simp only [combineOuter]
    cases hbi : allocs[i]? with
    | none => exact ih (i + 1) allocs p bk hget hm
    | some b1 =>
      by_cases hcond : b1.ptr ≠ 0 ∧ b1.mark = BlockState.Unused
      · simp only [if_pos hcond]
        have hpi : p ≠ i := by
          intro he
          subst he
          rw [hget] at hbi
          obtain rfl : bk = b1 := by simpa using hbi
          rw [hm] at hcond
          exact absurd hcond.2 (by decide)
        exact ih (i + 1) _ p bk (combineInner_freed i p hpi 0 allocs.length allocs bk hget hm) hm
      · simp only [if_neg hcond]
        exact ih (i + 1) allocs p bk hget hm

theorem combineInner_chunk_idx (i : Nat) :
    ∀ (j fuel : Nat) (allocs : List AllocatedBlock) (p : Nat),
      ((combineInner i j fuel allocs)[p]?).map AllocatedBlock.chunk_idx =
        (allocs[p]?).map AllocatedBlock.chunk_idx := by
  intro j fuel
  induction fuel generalizing j with
  | zero => intro allocs p; simp [combineInner]
  | succ fuel ih =>
    intro allocs p
    simp only [combineInner]
    cases hbi : allocs[i]? with
    | none => exact ih (j + 1) allocs p
    | some b1 =>
      cases hbj : allocs[j]? with
      | none => exact ih (j + 1) allocs p
      | some b2 =>
        by_cases hcond : b2.mark = BlockState.Unused ∧ are_blocks_adjacent b1 b2
        · simp only [if_pos hcond]
          rw [ih (j + 1)]
          by_cases hpj : p = j
          · subst hpj
            rw [modifyIdx_get_self]
            by_cases hpi : p = i
            · subst hpi
              rw [modifyIdx_get_self, hbi]
              simp
            · rw [modifyIdx_get_other _ _ _ _ (fun he => hpi he.symm), hbj]
              simp
          · rw [modifyIdx_get_other _ _ _ _ (fun he => hpj he.symm)]
            by_cases hpi : p = i
            · subst hpi
              rw [modifyIdx_get_self, hbi]
              simp
            · rw [modifyIdx_get_other _ _ _ _ (fun he => hpi he.symm)]
        · simp only [if_neg hcond]
          exact ih (j + 1) allocs p

theorem combineOuter_chunk_idx :
    ∀ (i fuel : Nat) (allocs : List AllocatedBlock) (p : Nat),
      ((combineOuter i fuel allocs)[p]?).map AllocatedBlock.chunk_idx =
        (allocs[p]?).map AllocatedBlock.chunk_idx := by
  intro i fuel
  induction fuel generalizing i with
  | zero => intro allocs p; simp [combineOuter]
  | succ fuel ih =>
    intro allocs p
    simp only [combineOuter]
    cases hbi : allocs[i]? with
    | none => exact ih (i + 1) allocs p
    | some b1 =>
      by_cases hcond : b1.ptr ≠ 0 ∧ b1.mark = BlockState.Unused
      · simp only [if_pos hcond]
        rw [ih (i + 1), combineInner_chunk_idx]
      · simp only [if_neg hcond]
        exact ih (i + 1) allocs p

/-- C7: during `collect()`, every chunk whose used-byte counter is 0
after the sweep is released (its pointer nulled and both counters
zeroed, per `free_chunk`), and every block whose owning-chunk index
references that chunk ends the collection marked `Freed` with its
address cleared to null (coalescing never resurrects or moves them). -/
theorem c7_empty_chunk_release (gc : GC) (stack : List Nat) (k : Nat)
    (c : Chunk)
    (hc : (sweep (scan_stack stack (resetMarks gc))).m_chunks[k]? = some c)
    (hzero : c.used_size = 0) :
    (collect stack gc).m_chunks[k]? = some ⟨0, 0, 0⟩ ∧
    (∀ (p : Nat) (bk : AllocatedBlock), (collect stack gc).m_allocs[p]? = some bk → bk.chunk_idx = k →
      bk.mark = BlockState.Freed ∧ bk.ptr = 0) := by
  unfold collect
  constructor
  · show (freeEmptyChunks (sweep (scan_stack stack (resetMarks gc)))).m_chunks[k]? = _
    unfold freeEmptyChunks
    exact freeEmptyLoop_chunk _ 0 _ k c hc hzero
  · intro p bk hget hcix
    have hpi4 : ∀ (p' : Nat) (bk' : AllocatedBlock),
        (freeEmptyChunks (sweep (scan_stack stack (resetMarks gc)))).m_allocs[p']? = some bk' →
        bk'.chunk_idx = k → bk'.mark = BlockState.Freed ∧ bk'.ptr = 0 := by
      unfold freeEmptyChunks
      intro p' bk' hg hcx
      exact freeEmptyLoop_blocks _ 0 _ k c hc hzero p' bk' hg (by omega)
    set s4 := freeEmptyChunks (sweep (scan_stack stack (resetMarks gc))) with hs4
    have hcix' : ((combine_unused_blocks s4).m_allocs[p]?).map AllocatedBlock.chunk_idx =
        (s4.m_allocs[p]?).map AllocatedBlock.chunk_idx := by
      unfold combine_unused_blocks
      exact combineOuter_chunk_idx 0 s4.m_allocs.length s4.m_allocs p
    rw [hget] at hcix'
    cases hl : s4.m_allocs[p]? with
    | none => rw [hl] at hcix'; simp at hcix'
    | some bk0 =>
      rw [hl] at hcix'
      simp only [Option.map_some'] at hcix'
      have hbk0 : bk0.chunk_idx = k := by
        have : bk.chunk_idx = bk0.chunk_idx := by simpa using hcix'
        omega
      have hfreed := hpi4 p bk0 hl hbk0
      have hsame : (combine_unused_blocks s4).m_allocs[p]? = some bk0 := by
        unfold combine_unused_blocks
        exact combineOuter_freed 0 s4.m_allocs.length s4.m_allocs p bk0 hl hfreed.1
      rw [hget] at hsame
      obtain rfl : bk = bk0 := by simpa using hsame
      exact hfreed

/-- C7 witness at a concrete input: a fresh-style state whose only chunk
still has counter 0 after the sweep. -/
theorem c7_empty_chunk_release_witness :
    (collect [7]
      ⟨[⟨4096, CHUNK_SIZE, BlockState.Unused, 0⟩], [⟨4096, 0, CHUNK_SIZE⟩], 0, 0⟩).m_chunks[0]? =
      some ⟨0, 0, 0⟩ ∧
    (∀ (p : Nat) (bk : AllocatedBlock), (collect [7]
      ⟨[⟨4096, CHUNK_SIZE, BlockState.Unused, 0⟩], [⟨4096, 0, CHUNK_SIZE⟩], 0, 0⟩).m_allocs[p]? =
        some bk → bk.chunk_idx = 0 →
      bk.mark = BlockState.Freed ∧ bk.ptr = 0) :=
  c7_empty_chunk_release
    ⟨[⟨4096, CHUNK_SIZE, BlockState.Unused, 0⟩], [⟨4096, 0, CHUNK_SIZE⟩], 0, 0⟩
    [7] 0 ⟨4096, 0, CHUNK_SIZE⟩ (by rfl) (by rfl)

/-- C8 (amended): two adjacent `Unused` blocks b1 = (P, S1) and
b2 = (P + S1, S2) are merged by one `collect()` call into a single
`Unused` block at base P with size S1 + S2 (b2 becoming `Freed` with
size 0), and a subsequent `allocate (S1 + S2)` returns exactly P without
acquiring a new chunk — provided the owning chunk's used-byte counter
stays nonzero through the sweep (here: a third, stack-referenced `Used`
block keeps `sK > 0` bytes live, so the chunk-release phase does not
free the chunk first; see the counterexample for the unguarded claim)
and the next-free cache indexes b1. -/
theorem c8_coalesce_reuse (P S1 S2 Q szK sK C M os : Nat)
    (hP : P ≠ 0) (hS1 : 0 < S1) (_hS2 : 0 < S2) (hsK : ¬(sK = 0)) :
    collect [Q] ⟨[⟨Q, szK, BlockState.Used, 0⟩, ⟨P, S1, BlockState.Unused, 0⟩,
        ⟨P + S1, S2, BlockState.Unused, 0⟩], [⟨C, sK, M⟩], 0, 1⟩ =
      ⟨[⟨Q, szK, 1, 0⟩, ⟨P, S1 + S2, BlockState.Unused, 0⟩,
        ⟨P + S1, 0, BlockState.Freed, 0⟩], [⟨C, sK, M⟩], 0, 1⟩ ∧
    allocate os (S1 + S2)
      ⟨[⟨Q, szK, 1, 0⟩, ⟨P, S1 + S2, BlockState.Unused, 0⟩,
        ⟨P + S1, 0, BlockState.Freed, 0⟩], [⟨C, sK, M⟩], 0, 1⟩ =
      Except.ok (P,
        ⟨[⟨Q, szK, 1, 0⟩, ⟨P, S1 + S2, BlockState.Used, 0⟩,
          ⟨P + S1, 0, BlockState.Freed, 0⟩], [⟨C, sK + (S1 + S2), M⟩], 0, 1⟩) := by
  have hadj1 : ¬(P + S1 = P) := by omega
  constructor
  · have hreset : resetMarks ⟨[⟨Q, szK, BlockState.Used, 0⟩,
        ⟨P, S1, BlockState.Unused, 0⟩, ⟨P + S1, S2, BlockState.Unused, 0⟩],
        [⟨C, sK, M⟩], 0, 1⟩ =
        ⟨[⟨Q, szK, BlockState.Used, 0⟩, ⟨P, S1, BlockState.Unused, 0⟩,
          ⟨P + S1, S2, BlockState.Unused, 0⟩], [⟨C, sK, M⟩], 0, 1⟩ := by
      simp [resetMarks, BlockState.Used, BlockState.Unused]
    have hscan : scan_stack [Q] ⟨[⟨Q, szK, BlockState.Used, 0⟩,
        ⟨P, S1, BlockState.Unused, 0⟩, ⟨P + S1, S2, BlockState.Unused, 0⟩],
        [⟨C, sK, M⟩], 0, 1⟩ =
        ⟨[⟨Q, szK, 1, 0⟩, ⟨P, S1, BlockState.Unused, 0⟩,
          ⟨P + S1, S2, BlockState.Unused, 0⟩], [⟨C, sK, M⟩], 0, 1⟩ := by
      simp [scan_stack, scanWord, BlockState.Used]
    have hsweep : sweep ⟨[⟨Q, szK, 1, 0⟩, ⟨P, S1, BlockState.Unused, 0⟩,
        ⟨P + S1, S2, BlockState.Unused, 0⟩], [⟨C, sK, M⟩], 0, 1⟩ =
        ⟨[⟨Q, szK, 1, 0⟩, ⟨P, S1, BlockState.Unused, 0⟩,
          ⟨P + S1, S2, BlockState.Unused, 0⟩], [⟨C, sK, M⟩], 0, 1⟩ := by
      simp [sweep, sweepLoop, BlockState.Unused]
    have hfree : freeEmptyChunks ⟨[⟨Q, szK, 1, 0⟩,
        ⟨P, S1, BlockState.Unused, 0⟩, ⟨P + S1, S2, BlockState.Unused, 0⟩],
        [⟨C, sK, M⟩], 0, 1⟩ =
        ⟨[⟨Q, szK, 1, 0⟩, ⟨P, S1, BlockState.Unused, 0⟩,
          ⟨P + S1, S2, BlockState.Unused, 0⟩], [⟨C, sK, M⟩], 0, 1⟩ := by
      simp [freeEmptyChunks, freeEmptyLoop, hsK]
    have hcomb : combine_unused_blocks ⟨[⟨Q, szK, 1, 0⟩,
        ⟨P, S1, BlockState.Unused, 0⟩, ⟨P + S1, S2, BlockState.Unused, 0⟩],
        [⟨C, sK, M⟩], 0, 1⟩ =
        ⟨[⟨Q, szK, 1, 0⟩, ⟨P, S1 + S2, BlockState.Unused, 0⟩,
          ⟨P + S1, 0, BlockState.Freed, 0⟩], [⟨C, sK, M⟩], 0, 1⟩ := by
      simp [combine_unused_blocks, combineOuter, combineInner,
        are_blocks_adjacent, modifyIdx, BlockState.Unused, BlockState.Freed,
        hadj1, hP]
    unfold collect
    rw [hreset, hscan, hsweep, hfree, hcomb]
  · have e := alloc_fast_exact
      ⟨[⟨Q, szK, 1, 0⟩, ⟨P, S1 + S2, BlockState.Unused, 0⟩,
        ⟨P + S1, 0, BlockState.Freed, 0⟩], [⟨C, sK, M⟩], 0, 1⟩
      os (S1 + S2) ⟨P, S1 + S2, BlockState.Unused, 0⟩ (by simp) rfl rfl hP
    rw [e]
    simp [modifyIdx, BlockState.Used]

/-- C8 witness at a concrete input: P = 4096, S1 = S2 = 16, a keeper
block at 9000 holding 8 live bytes. -/
theorem c8_coalesce_reuse_witness :
    collect [9000] ⟨[⟨9000, 8, BlockState.Used, 0⟩,
        ⟨4096, 16, BlockState.Unused, 0⟩, ⟨4096 + 16, 16, BlockState.Unused, 0⟩],
        [⟨4000, 8, CHUNK_SIZE⟩], 0, 1⟩ =
      ⟨[⟨9000, 8, 1, 0⟩, ⟨4096, 16 + 16, BlockState.Unused, 0⟩,
        ⟨4096 + 16, 0, BlockState.Freed, 0⟩], [⟨4000, 8, CHUNK_SIZE⟩], 0, 1⟩ ∧
    allocate 0 (16 + 16)
      ⟨[⟨9000, 8, 1, 0⟩, ⟨4096, 16 + 16, BlockState.Unused, 0⟩,
        ⟨4096 + 16, 0, BlockState.Freed, 0⟩], [⟨4000, 8, CHUNK_SIZE⟩], 0, 1⟩ =
      Except.ok (4096,
        ⟨[⟨9000, 8, 1, 0⟩, ⟨4096, 16 + 16, BlockState.Used, 0⟩,
          ⟨4096 + 16, 0, BlockState.Freed, 0⟩],
         [⟨4000, 8 + (16 + 16), CHUNK_SIZE⟩], 0, 1⟩) :=
  c8_coalesce_reuse 4096 16 16 9000 8 8 4000 CHUNK_SIZE 0
    (by decide) (by decide) (by decide) (by decide)

/-! ## Claim C1, amended theorem -/

theorem TilesFrom_append (l : List AllocatedBlock) :
    ∀ (a b s : Nat), TilesFrom a l b →
      TilesFrom a (l ++ [⟨b, s, BlockState.Used, 0⟩]) (b + s) := by
  induction l with
  | nil =>
    intro a b s h
    simp only [TilesFrom] at h
    subst h
    exact ⟨rfl, rfl, rfl, rfl⟩
  | cons x xs ih =>
    intro a b s h
    obtain ⟨hx, hm, hc, hrest⟩ := h
    exact ⟨hx, hm, hc, ih _ _ s hrest⟩

theorem TilesFrom_bounds (l : List AllocatedBlock) :
    ∀ (a b : Nat), TilesFrom a l b →
      a ≤ b ∧ ∀ blk ∈ l, a ≤ blk.ptr ∧ blk.ptr + blk.size ≤ b := by
  induction l with
  | nil =>
    intro a b h
    simp only [TilesFrom] at h
    subst h
    exact ⟨Nat.le_refl _, by simp⟩
  | cons x xs ih =>
    intro a b h
    obtain ⟨hx, _, _, hrest⟩ := h
    obtain ⟨hle, hall⟩ := ih _ _ hrest
    refine ⟨by omega, ?_⟩
    intro blk hblk
    rcases List.mem_cons.mp hblk with he | hm
    · subst he
      constructor
      · omega
      · rw [hx]; omega
    · have := hall blk hm
      omega

theorem TilesFrom_pairwise (l : List AllocatedBlock) :
    ∀ (a b : Nat), TilesFrom a l b →
      l.Pairwise (fun x y => x.ptr + x.size ≤ y.ptr) := by
  induction l with
  | nil => intro a b _; exact List.Pairwise.nil
  | cons x xs ih =>
    intro a b h
    obtain ⟨hx, _, _, hrest⟩ := h
    refine List.Pairwise.cons ?_ (ih _ _ hrest)
    intro y hy
    have := (TilesFrom_bounds xs _ _ hrest).2 y hy
    rw [hx]
    omega

theorem C1Inv_usedDisjoint (P T : Nat) (gc : GC) (h : C1Inv P T gc) :
    UsedDisjoint gc := by
  obtain ⟨hP, hch, hci, hnf, hTle, hbr⟩ := h
  unfold UsedDisjoint
  rcases hbr with ⟨hTlt, tail, hallocs, htiles⟩ | ⟨hTeq, s, tail, hs, hsle, hallocs, htiles⟩
  · rw [hallocs]
    refine List.Pairwise.cons ?_ ?_
    · intro y _ hmark
      exact absurd hmark (by simp [BlockState.Unused, BlockState.Used])
    · refine (TilesFrom_pairwise tail _ _ htiles).imp ?_
      intro x y hxy
      intro _ _
      exact Or.inl hxy
  · rw [hallocs]
    refine List.Pairwise.cons ?_ ?_
    · intro y hy _ _
      have := (TilesFrom_bounds tail _ _ htiles).2 y hy
      exact Or.inr (by simpa using this.2)
    · refine (TilesFrom_pairwise tail _ _ htiles).imp ?_
      intro x y hxy
      intro _ _
      exact Or.inl hxy

theorem C1Inv_init (P : Nat) (hP : 0 < P) :
    C1Inv P 0 ⟨[⟨P, CHUNK_SIZE, BlockState.Unused, 0⟩],
      [⟨P, 0, CHUNK_SIZE⟩], 0, 0⟩ := by
  refine ⟨hP, rfl, rfl, rfl, by omega, Or.inl ⟨by decide, [], ?_, rfl⟩⟩
  simp [TilesFrom]

theorem C1_step (P T s : Nat) (gc : GC) (os : Nat)
    (hs : 0 < s) (hT : T + s ≤ CHUNK_SIZE) (hInv : C1Inv P T gc) :
    ∃ gc', allocate os s gc = Except.ok (P + T, gc') ∧ C1Inv P (T + s) gc' := by
  obtain ⟨hP, hch, hci, hnf, hTle, hbr⟩ := hInv
  rcases hbr with ⟨hTlt, tail, hallocs, htiles⟩ | ⟨hTeq, _, _, _, _, _, _⟩
  · have hget : gc.m_allocs[gc.m_next_free_allocated_block_idx]? =
        some ⟨P + T, CHUNK_SIZE - T, BlockState.Unused, 0⟩ := by
      rw [hnf, hallocs]
      simp
    have hptr : P + T ≠ 0 := by omega
    by_cases hexact : T + s = CHUNK_SIZE
    · have heq : s = CHUNK_SIZE - T := by omega
      have e := alloc_fast_exact gc os s ⟨P + T, CHUNK_SIZE - T, BlockState.Unused, 0⟩
        hget rfl heq hptr
      refine ⟨_, e, ?_⟩
      refine ⟨hP, ?_, by simpa using hci, by simpa using hnf, by omega, Or.inr ?_⟩
      · show modifyIdx gc.m_chunks _ _ = _
        rw [hch]
        simp [modifyIdx]
      · refine ⟨hexact, s, tail, hs, by omega, ?_, ?_⟩
        · show modifyIdx gc.m_allocs _ _ = _
          rw [hallocs, hnf]
          have hTs : CHUNK_SIZE - s = T := by omega
          simp [modifyIdx, hTs, heq, BlockState.Used]
          omega
        · have hTs : CHUNK_SIZE - s = T := by omega
          rw [hTs]
          exact htiles
    · have hlt : s < CHUNK_SIZE - T := by omega
      have e := alloc_fast_split gc os s ⟨P + T, CHUNK_SIZE - T, BlockState.Unused, 0⟩
        hget rfl hlt hptr
      refine ⟨_, e, ?_⟩
      refine ⟨hP, ?_, by simpa using hci, by simpa using hnf, by omega, Or.inl ?_⟩
      · show modifyIdx gc.m_chunks _ _ = _
        rw [hch]
        simp [modifyIdx]
      · refine ⟨by omega, tail ++ [⟨P + T, s, 0, 0⟩], ?_, ?_⟩
        · show modifyIdx gc.m_allocs _ _ ++ _ = _
          rw [hallocs, hnf]
          have h1 : P + T + s = P + (T + s) := by omega
          have h2 : CHUNK_SIZE - T - s = CHUNK_SIZE - (T + s) := by omega
          simp [modifyIdx, h1, h2]
        · have happ := TilesFrom_append tail P (P + T) s htiles
          have h1 : P + T + s = P + (T + s) := by omega
          rw [h1] at happ
          exact happ
  · omega

theorem C1_run (sizes : List Nat) :
    ∀ (P T : Nat) (gc : GC), C1Inv P T gc → (∀ s ∈ sizes, 0 < s) →
      T + sizes.sum ≤ CHUNK_SIZE →
      ∃ addrs gcF, allocSeq gc (sizes.map (fun s => (s, 0))) = some (addrs, gcF) ∧
        (∀ x ∈ addrs, P ≤ x ∧ x < P + CHUNK_SIZE) ∧
        C1Inv P (T + sizes.sum) gcF := by
  induction sizes with
  | nil =>
    intro P T gc hInv _ _
    exact ⟨[], gc, rfl, by simp, by simpa using hInv⟩
  | cons s rest ih =>
    intro P T gc hInv hpos hsum
    have hs : 0 < s := hpos s (by simp)
    have hstep := C1_step P T s gc 0 hs (by simp [List.sum_cons] at hsum; omega) hInv
    obtain ⟨gc1, he, hInv1⟩ := hstep
    have hsum1 : (T + s) + rest.sum ≤ CHUNK_SIZE := by
      simp [List.sum_cons] at hsum
      omega
    obtain ⟨addrs1, gcF, hseq, hmem, hInvF⟩ :=
      ih P (T + s) gc1 hInv1 (fun x hx => hpos x (by simp [hx])) hsum1
    refine ⟨(P + T) :: addrs1, gcF, ?_, ?_, ?_⟩
    · simp only [List.map_cons, allocSeq, he, hseq]
    · intro x hx
      rcases List.mem_cons.mp hx with he' | hm
      · subst he'
        constructor
        · omega
        · simp [List.sum_cons] at hsum
          omega
      · exact hmem x hm
    · have : T + (s :: rest).sum = (T + s) + rest.sum := by
        simp [List.sum_cons]
        omega
      rw [this]
      exact hInvF

/-- C1 (amended): for every sequence of `allocate` calls with positive
request sizes whose total fits the initial chunk, every returned address
lies within that chunk's byte range `[P, P + CHUNK_SIZE)`, and after
every prefix of the sequence no two blocks simultaneously in the `Used`
state overlap.  (Positivity is needed: a zero-size request arriving when
the chunk is exactly full is served from a freshly acquired chunk and
returns an address outside the initial chunk — see the counterexample.) -/
theorem c1_fit_one_chunk (P : Nat) (sizes : List Nat) (gc0 : GC) (n : Nat)
    (hP : 0 < P) (hinit : GC.init P = some gc0)
    (hpos : ∀ s ∈ sizes, 0 < s) (hsum : sizes.sum ≤ CHUNK_SIZE) :
    ∃ addrs gcn,
      allocSeq gc0 ((sizes.take n).map (fun s => (s, 0))) = some (addrs, gcn) ∧
      (∀ x ∈ addrs, P ≤ x ∧ x < P + CHUNK_SIZE) ∧ UsedDisjoint gcn := by
  have hgc0 : gc0 = ⟨[⟨P, CHUNK_SIZE, BlockState.Unused, 0⟩],
      [⟨P, 0, CHUNK_SIZE⟩], 0, 0⟩ := by
    unfold GC.init alloc_chunk at hinit
    rw [if_pos (by omega : P ≠ 0)] at hinit
    simp only [Option.some.injEq] at hinit
    exact hinit.symm
  subst hgc0
  have hsum' : 0 + (sizes.take n).sum ≤ CHUNK_SIZE := by
    have hsplit : (sizes.take n).sum + (sizes.drop n).sum = sizes.sum := by
      rw [← List.sum_append, List.take_append_drop]
    omega
  have hpos' : ∀ s ∈ sizes.take n, 0 < s := by
    intro s hsmem
    exact hpos s ((sizes.take_sublist n).mem hsmem)
  obtain ⟨addrs, gcn, hseq, hmem, hInv⟩ :=
    C1_run (sizes.take n) P 0 _ (C1Inv_init P hP) hpos' hsum'
  exact ⟨addrs, gcn, hseq, hmem, C1Inv_usedDisjoint P _ gcn hInv⟩

/-- C1 witness at a concrete input: sizes 16 and 32 from a fresh
collector whose chunk is based at 4096. -/
theorem c1_fit_one_chunk_witness :
    ∃ addrs gcn,
      allocSeq ⟨[⟨4096, CHUNK_SIZE, BlockState.Unused, 0⟩],
          [⟨4096, 0, CHUNK_SIZE⟩], 0, 0⟩
        ((([16, 32] : List Nat).take 2).map (fun s => (s, 0))) =
        some (addrs, gcn) ∧
      (∀ x ∈ addrs, 4096 ≤ x ∧ x < 4096 + CHUNK_SIZE) ∧ UsedDisjoint gcn :=
  c1_fit_one_chunk 4096 [16, 32] _ 2 (by decide) (by rfl)
    (by decide) (by decide)
